import Mathlib

/- Shallow embedding of src/fold.cpp.

   A `top` (C++ `top = vector<pair<unsigned int, vector<unsigned int>>>`) is one
   root's branch list: entries `(branch_word_id, leaf_list)`.  A `tops` is the
   whole forest, indexed by word id.  C++ `unsigned int` values are modelled as
   `Nat`; where unsigned wrap-around changes a reachable result it is made
   explicit (`usub1` for the `x - 1` underflow on empty collections in
   `iterateCoordinates`, and `% 2^32` for the sum and product in `maximum`).
   Loop counters that only ever increment stay plain `Nat` successors, since
   wrapping them would need 2^32 iterations.

   The corpus file is modelled as the list of its whitespace-separated tokens,
   with the file not ending in whitespace: a successful `>>` extraction of the
   last token hits end-of-file and sets eofbit, so the `while (!eof())` loops
   run exactly once per token.  A failed extraction leaves the target string
   empty (C++11 `operator>>` clears it), which matters only for corpora with
   fewer than two tokens.  Out-of-range vector indexing (undefined behaviour in
   the source) is modelled by returning `none` / `Option` where the program can
   actually reach it, and by `getD` defaults where the surrounding code makes
   the index provably in range. -/

abbrev top : Type := List (Nat × List Nat)

abbrev tops : Type := List top

/-- `doesNotContain` from fold.cpp: scan the branch list for an entry whose
branch id equals `x`; the C++ loop stops at the first hit or at the last
element and reports whether the element it stopped on differs from `x`. -/
def doesNotContain : top → Nat → Bool
  | [], _ => true
  | [e], x => e.1 != x
  | e :: f :: rest, x => if e.1 = x then false else doesNotContain (f :: rest) x

/-- The leaf-insertion step of `load`: find the branch entry whose id is `b`
(the id of `oneBack`) and append leaf `w` to it if absent (the `k` scan in the
source).  If no entry matches, the C++ scan would run out of range; that case
is unreachable in `load` (the `oneBack` branch is pushed first) and is
modelled as a no-op. -/
def addLeaf : top → Nat → Nat → top
  | [], _, _ => []
  | e :: rest, b, w =>
    if e.1 = b then
      (if w ∈ e.2 then e :: rest else (e.1, e.2 ++ [w]) :: rest)
    else
      e :: addLeaf rest b w

/-- `trees[d0].push_back((b, {}))` from `load`. -/
def pushBranch (trees : tops) (d0 b : Nat) : tops :=
  trees.set d0 ((trees.getD d0 []) ++ [(b, [])])

/-- One iteration of the `while (!in.eof())` loop in `load`: word `w` becomes a
branch of `trees[d0]` when absent, then a leaf of the branch `b0`. -/
def processWord (trees : tops) (d0 b0 w : Nat) : tops :=
  let t0 := trees.getD d0 []
  let t1 := if doesNotContain t0 w then t0 ++ [(w, [])] else t0
  trees.set d0 (addLeaf t1 b0 w)

/-- One iteration of the `loadDictionary` loop: `if (count(word) == 0)
insert(word, size())`. -/
def internStep (d : List (String × Nat)) (w : String) : List (String × Nat) :=
  if (d.find? (fun e => e.1 == w)).isSome then d else d ++ [(w, d.length)]

/-- `loadDictionary` from fold.cpp.  On the empty corpus the very first
extraction fails with the stream not yet at eof, so the loop body runs once
with the cleared string `""` and interns it. -/
def loadDictionary : List String → List (String × Nat)
  | [] => [("", 0)]
  | t :: ts => (t :: ts).foldl internStep []

/-- `dictionary[w]` as `load` uses it: every looked-up corpus word is present;
the only absent key the program ever passes is the cleared string of a failed
read, for which `map::operator[]` value-initialises the id to `0`. -/
def idOf (d : List (String × Nat)) (w : String) : Nat :=
  match d.find? (fun e => e.1 == w) with
  | some e => e.2
  | none => 0

/-- `load` from fold.cpp.  `twoBack` and `oneBack` are read once before the
loop and never reassigned inside it, so every iteration touches only
`trees[dictionary[twoBack]]`.  For corpora with fewer than two tokens the
failed extraction(s) leave `""` in the corresponding variable. -/
def load (tokens : List String) : tops :=
  let dict := loadDictionary tokens
  let trees0 : tops := List.replicate dict.length []
  match tokens with
  | [] => pushBranch trees0 (idOf dict "") (idOf dict "")
  | [t] => pushBranch trees0 (idOf dict t) (idOf dict "")
  | t0 :: t1 :: rest =>
    rest.foldl (fun tr w => processWord tr (idOf dict t0) (idOf dict t1) (idOf dict w))
      (pushBranch trees0 (idOf dict t0) (idOf dict t1))

/-- Spec-side helper (from the spec's words, for claim C6): the distinct tokens
of the stream in order of first occurrence. -/
def uniqueFirsts (ts : List String) : List String :=
  ts.foldl (fun acc w => if w ∈ acc then acc else acc ++ [w]) []

/-- C++ `unsigned int` decrement: `n - 1` with wrap-around at zero. -/
def usub1 (n : Nat) : Nat := (n + 4294967295) % 4294967296

/-- `root[i].second.size()` with the `getD` default for an out-of-range index
(reachable only through `usub1` underflow on an empty root). -/
def branchLen (root : top) (i : Nat) : Nat := ((root.getD i (0, [])).2).length

/-- The coordinate-advance step that `iterateCoordinates` spells out twice,
once for `main` and once for `sweep`: if the second component sits on the last
leaf of its branch, move to the next branch, else to the next leaf. -/
def advPos (root : top) (p : Nat × Nat) : Nat × Nat :=
  if p.2 = usub1 (branchLen root p.1) then (p.1 + 1, 0) else (p.1, p.2 + 1)

/-- `iterateCoordinates` from fold.cpp.  The `size() - 1` expressions are
unsigned and wrap on empty collections (`usub1`). -/
def iterateCoordinates (root : top) (mc sc : Nat × Nat) : (Nat × Nat) × (Nat × Nat) :=
  if sc.1 = usub1 root.length ∧ sc.2 = usub1 (branchLen root (usub1 root.length)) then
    (advPos root mc, advPos root mc)
  else
    (mc, advPos root sc)

/-- The `grandchildren` accumulation in `maximum`: leaf counts summed in an
`unsigned int`. -/
def grandchildrenU (root : top) : Nat :=
  ((root.map fun e => e.2.length).sum) % 4294967296

/-- `maximum` from fold.cpp, including the redundant `grandchildren == 1`
special case and the unsigned product. -/
def maximum (root : top) : Nat :=
  let g := grandchildrenU root
  if g = 1 then 1 else (g * ((g + 1) % 4294967296) % 4294967296) / 2

/-- `getNextFrame` from fold.cpp: advance the coordinates unless this is the
first call, then fill frame slots 0,1,2,3,6 from the root's branch list.  The
source indexes the vectors unchecked; an out-of-range read (undefined
behaviour) is modelled as `none`. -/
def getNextFrame (current : Nat) (root : top) (frame : List Nat)
    (mc sc : Nat × Nat) (ranBefore : Bool) :
    Option (List Nat × ((Nat × Nat) × (Nat × Nat))) :=
  let cs := if ranBefore then iterateCoordinates root mc sc else (mc, sc)
  match root[cs.1.1]?, root[cs.2.1]? with
  | some eMain, some eSweep =>
    match eMain.2[cs.1.2]?, eSweep.2[cs.2.2]? with
    | some leafM, some leafS =>
      some (((((frame.set 0 current).set 1 eMain.1).set 2 leafM).set 3 eSweep.1).set 6 leafS,
        cs)
    | _, _ => none
  | _, _ => none

/-- The `while (i < children.size() && doesNotContain(root, children[i]))`
scan of `getNext`, expressed as the number of skipped candidates so that the
cursor after the scan is `i + scanOff`. -/
def scanOff (children : List Nat) (root : top) (i : Nat) : Nat :=
  if h : i < children.length then
    (if doesNotContain root children[i] then scanOff children root (i + 1) + 1 else 0)
  else 0
termination_by children.length - i

/-- The cursor position at which the scan of `getNext` stops: the first index
`≥ i` whose candidate occurs in `root`, or `children.length` if none does. -/
def scanIdx (children : List Nat) (root : top) (i : Nat) : Nat :=
  i + scanOff children root i

/-- `getNext` from fold.cpp: `(gotNext, cursor after the trailing i++, value
written to frame[framePos])`.  The middle `else if` branch of the source is
unreachable (its condition contradicts the loop exit) and drops out. -/
def getNext (children : List Nat) (root : top) (i : Nat) : Bool × Nat × Option Nat :=
  let j := scanIdx children root i
  if h : j < children.length then (true, j + 1, some children[j])
  else (false, j + 1, none)

/-- The values successive `getNext` calls deliver from cursor `i` until
`gotNext` turns false: the matcher loop `while (gotNextE)` of `main`. -/
def matchesFrom (children : List Nat) (root : top) (i : Nat) : List Nat :=
  if h : scanIdx children root i < children.length then
    children[scanIdx children root i] :: matchesFrom children root (scanIdx children root i + 1)
  else []
termination_by children.length - i
decreasing_by
  simp only [scanIdx] at *
  omega

/-- The body of the per-root `for (pos = 0; pos < max; pos++)` loop of `main`,
iterated `n` times: each step runs `getNextFrame`, then drains the matcher for
the pair `(frame[1], frame[3])`, emitting one frame copy per match (the reused
buffer keeps the last slot-4 write).  `none` records an out-of-range frame
read. -/
def runRootAux (trees : tops) (current : Nat) (root : top) :
    Nat → List Nat → (Nat × Nat) → (Nat × Nat) → Bool → Option (List (List Nat))
  | 0, _, _, _, _ => some []
  | n + 1, frame, mc, sc, rb =>
    match getNextFrame current root frame mc sc rb with
    | none => none
    | some (f, cs) =>
      let children := (trees.getD (f.getD 1 0) []).map Prod.fst
      let rootD := trees.getD (f.getD 3 0) []
      let ms := matchesFrom children rootD 0
      let fLast := match ms.getLast? with
        | some v => f.set 4 v
        | none => f
      match runRootAux trees current root n fLast cs.1 cs.2 true with
      | none => none
      | some acc => some ((ms.map fun v => f.set 4 v) ++ acc)

/-- One iteration of the `for (current = 0; ...)` loop of `main`: the frames
emitted for one root, or `none` if an out-of-range read occurs. -/
def runRoot (trees : tops) (current : Nat) (frame : List Nat) :
    Option (List (List Nat)) :=
  runRootAux trees current (trees.getD current []) (maximum (trees.getD current []))
    frame (0, 0) (0, 0) false

/-- The `(main, sweep)` coordinate states over `n` calls of `getNextFrame`:
the first call uses the state unchanged, each later call first applies
`iterateCoordinates`. -/
def statesFrom (root : top) : ((Nat × Nat) × (Nat × Nat)) → Nat → List ((Nat × Nat) × (Nat × Nat))
  | _, 0 => []
  | (mc, sc), n + 1 => (mc, sc) :: statesFrom root (iterateCoordinates root mc sc) n

/-- The coordinate pairs the driver visits for one root: `maximum root` steps
starting from `main = sweep = (0,0)`, as in `main`. -/
def visited (root : top) : List ((Nat × Nat) × (Nat × Nat)) :=
  statesFrom root ((0, 0), (0, 0)) (maximum root)

/-- Spec-side: the total leaf count `L` of a root (exact, no truncation). -/
def gcount (root : top) : Nat := (root.map fun e => e.2.length).sum

/-- Spec-side (claim C5): the flattened position `k` of a root translated back
to `(branch_index, leaf_index)` in branch-list/leaf-list order. -/
def posOf (root : top) (k : Nat) : Nat × Nat :=
  match root with
  | [] => (0, k)
  | e :: rest =>
    if k < e.2.length then (0, k)
    else
      let p := posOf rest (k - e.2.length)
      (p.1 + 1, p.2)

/-- Spec-side (claim C5): the upper-triangular flattened index pairs
`(m, s)` with `m0 ≤ m ≤ s < L`, in row-major order. -/
def triFrom (L m : Nat) : List (Nat × Nat) :=
  if m < L then ((List.range (L - m)).map fun d => (m, m + d)) ++ triFrom L (m + 1) else []
termination_by L - m

/-- Lexicographic order on `(branch_index, leaf_index)` coordinates. -/
def lexLe (a b : Nat × Nat) : Prop := a.1 < b.1 ∨ (a.1 = b.1 ∧ a.2 ≤ b.2)

/-- `reverseDictionary[i]` as `outPutAll` uses it: `map::operator[]` yields the
stored word, or a value-initialised (empty) string for an absent id. -/
def resolveWord (rd : List (Nat × String)) (i : Nat) : String :=
  match rd.find? (fun e => e.1 == i) with
  | some e => e.2
  | none => ""

/-- `outPutAll` from fold.cpp: one output line per frame slot, for all
`frame.size()` slots in index order. -/
def outPutAll (frame : List Nat) (rd : List (Nat × String)) : List String :=
  frame.map fun i => resolveWord rd i

/-- The sentinel the frame buffer is filled with in `main`:
`vector<unsigned int> frame (9, 1234578)`. -/
def sentinel : Nat := 1234578

/-- The initial frame buffer of `main`. -/
def frameInit : List Nat := List.replicate 9 sentinel

theorem getD_set_of_ne {α : Type} (l : List α) (i j : Nat) (a d : α) (h : i ≠ j) :
    (l.set i a).getD j d = l.getD j d := by
  simp [List.getD_eq_getElem?_getD, List.getElem?_set_ne h]

theorem getD_set_self {α : Type} (l : List α) (i : Nat) (a d : α) (h : i < l.length) :
    (l.set i a).getD i d = a := by
  simp [List.getD_eq_getElem?_getD, List.getElem?_set_eq_of_lt a h]

theorem getD_replicate_nil (n j : Nat) : (List.replicate n ([] : top)).getD j [] = [] := by
  rw [List.getD_eq_getElem?_getD, List.getElem?_replicate]
  split <;> rfl

theorem doesNotContain_iff : ∀ (t : top) (x : Nat),
    doesNotContain t x = true ↔ x ∉ t.map Prod.fst
  | [], x => by simp [doesNotContain]
  | [e], x => by
    simp only [doesNotContain, List.map_cons, List.map_nil, List.mem_singleton, bne_iff_ne,
      ne_eq]
    exact ⟨fun hn hc => hn hc.symm, fun hn hc => hn hc.symm⟩
  | e :: f :: rest, x => by
    by_cases hx : e.1 = x
    · simp [doesNotContain, hx]
    · simp only [doesNotContain, if_neg hx, doesNotContain_iff (f :: rest) x,
        List.map_cons, List.mem_cons]
      constructor
      · intro hn hc
        rcases hc with hc | hc
        · exact hx hc.symm
        · exact hn hc
      · intro hn hc
        exact hn (Or.inr hc)

theorem doesNotContain_eq_false_iff (t : top) (x : Nat) :
    doesNotContain t x = false ↔ x ∈ t.map Prod.fst := by
  rw [Bool.eq_false_iff, Ne, doesNotContain_iff, not_not]

/-- C1 (code_bug): the window variables `twoBack`/`oneBack` are never shifted
inside the read loop, so on the corpus "a b c a b d" every later word is
attached under the first token's root: Forest[a] carries branches b,c,a,d with
all leaves under b, while Forest[b] and Forest[c] stay empty — not the
sliding-window forest the claim describes. -/
theorem c1_load_window_never_shifts :
    load ["a", "b", "c", "a", "b", "d"] =
      [[(1, [2, 0, 1, 3]), (2, []), (0, []), (3, [])], [], [], []] ∧
    (load ["a", "b", "c", "a", "b", "d"]).getD 1 [] = [] ∧
    (load ["a", "b", "c", "a", "b", "d"]).getD 2 [] = [] := by
  refine ⟨?_, ?_, ?_⟩ <;> rfl

theorem processWord_getD_ne (tr : tops) (d0 b0 w j : Nat) (h : j ≠ d0) :
    (processWord tr d0 b0 w).getD j [] = tr.getD j [] :=
  getD_set_of_ne _ _ _ _ _ (Ne.symm h)

theorem foldl_processWord_getD_ne (f : String → Nat) (d0 b0 j : Nat) (h : j ≠ d0) :
    ∀ (ws : List String) (tr : tops),
      (ws.foldl (fun tr w => processWord tr d0 b0 (f w)) tr).getD j [] = tr.getD j []
  | [], tr => rfl
  | w :: ws, tr => by
    rw [List.foldl_cons, foldl_processWord_getD_ne f d0 b0 j h ws,
      processWord_getD_ne _ _ _ _ _ h]

theorem pushBranch_getD_ne (tr : tops) (d0 b j : Nat) (h : j ≠ d0) :
    (pushBranch tr d0 b).getD j [] = tr.getD j [] :=
  getD_set_of_ne _ _ _ _ _ (Ne.symm h)

/-- C10: every branch and leaf insertion of the build targets the tree indexed
by the first token's word id, because `twoBack` and `oneBack` are set once
before the read loop and never reassigned; every other forest entry is empty
after the build. -/
theorem c10_only_first_token_tree_populated (t : String) (rest : List String) (j : Nat)
    (h : j ≠ idOf (loadDictionary (t :: rest)) t) :
    (load (t :: rest)).getD j [] = [] := by
  cases rest with
  | nil =>
    show (pushBranch (List.replicate (loadDictionary [t]).length [])
      (idOf (loadDictionary [t]) t) (idOf (loadDictionary [t]) "")).getD j [] = []
    rw [pushBranch_getD_ne _ _ _ _ h, getD_replicate_nil]
  | cons t1 rs =>
    show (rs.foldl (fun tr w => processWord tr (idOf (loadDictionary (t :: t1 :: rs)) t)
        (idOf (loadDictionary (t :: t1 :: rs)) t1) (idOf (loadDictionary (t :: t1 :: rs)) w))
      (pushBranch (List.replicate (loadDictionary (t :: t1 :: rs)).length [])
        (idOf (loadDictionary (t :: t1 :: rs)) t)
        (idOf (loadDictionary (t :: t1 :: rs)) t1))).getD j [] = []
    rw [foldl_processWord_getD_ne _ _ _ _ h, pushBranch_getD_ne _ _ _ _ h,
      getD_replicate_nil]

theorem c10_witness :
    1 ≠ idOf (loadDictionary ["x", "y", "z"]) "x" ∧ (load ["x", "y", "z"]).getD 1 [] = [] :=
  ⟨by decide, c10_only_first_token_tree_populated "x" ["y", "z"] 1 (by decide)⟩

theorem find?_fst_isSome (d : List (String × Nat)) (w : String) :
    (d.find? (fun e => e.1 == w)).isSome = true ↔ w ∈ d.map Prod.fst := by
  rw [List.find?_isSome]
  constructor
  · rintro ⟨e, he, hp⟩
    exact List.mem_map.mpr ⟨e, he, beq_iff_eq.mp hp⟩
  · intro hw
    obtain ⟨e, he, hfst⟩ := List.mem_map.mp hw
    exact ⟨e, he, beq_iff_eq.mpr hfst⟩

theorem map_fst_internStep (d : List (String × Nat)) (w : String) :
    (internStep d w).map Prod.fst =
      if w ∈ d.map Prod.fst then d.map Prod.fst else d.map Prod.fst ++ [w] := by
  by_cases hw : w ∈ d.map Prod.fst
  · have hS : (d.find? (fun e => e.1 == w)).isSome = true := (find?_fst_isSome d w).mpr hw
    rw [internStep, if_pos hS, if_pos hw]
  · have hS : ¬(d.find? (fun e => e.1 == w)).isSome = true := fun hc =>
      hw ((find?_fst_isSome d w).mp hc)
    rw [internStep, if_neg hS, if_neg hw]
    simp

theorem map_fst_foldl_internStep : ∀ (ts : List String) (d : List (String × Nat)),
    (ts.foldl internStep d).map Prod.fst =
      ts.foldl (fun acc w => if w ∈ acc then acc else acc ++ [w]) (d.map Prod.fst)
  | [], _ => rfl
  | t :: ts, d => by
    rw [List.foldl_cons, List.foldl_cons, map_fst_foldl_internStep ts (internStep d t),
      map_fst_internStep]

theorem map_snd_internStep (d : List (String × Nat)) (w : String)
    (h : d.map Prod.snd = List.range d.length) :
    (internStep d w).map Prod.snd = List.range (internStep d w).length := by
  unfold internStep
  split
  · exact h
  · simp [h, List.range_succ]

theorem map_snd_foldl_internStep : ∀ (ts : List String) (d : List (String × Nat)),
    d.map Prod.snd = List.range d.length →
    (ts.foldl internStep d).map Prod.snd = List.range (ts.foldl internStep d).length
  | [], _, h => h
  | t :: ts, d, h => by
    rw [List.foldl_cons]
    exact map_snd_foldl_internStep ts (internStep d t) (map_snd_internStep d t h)

theorem mem_foldl_uniq : ∀ (ts : List String) (acc : List String) (x : String),
    (x ∈ ts.foldl (fun acc w => if w ∈ acc then acc else acc ++ [w]) acc) ↔ x ∈ acc ∨ x ∈ ts
  | [], acc, x => by simp
  | t :: ts, acc, x => by
    rw [List.foldl_cons, mem_foldl_uniq ts]
    by_cases ht : t ∈ acc
    · rw [if_pos ht]
      constructor
      · rintro (hx | hx)
        · exact Or.inl hx
        · exact Or.inr (List.mem_cons_of_mem t hx)
      · rintro (hx | hx)
        · exact Or.inl hx
        · rcases List.mem_cons.mp hx with rfl | hx
          · exact Or.inl ht
          · exact Or.inr hx
    · rw [if_neg ht]
      constructor
      · rintro (hx | hx)
        · rcases List.mem_append.mp hx with hx | hx
          · exact Or.inl hx
          · exact Or.inr (List.mem_cons.mpr (Or.inl (List.mem_singleton.mp hx)))
        · exact Or.inr (List.mem_cons_of_mem t hx)
      · rintro (hx | hx)
        · exact Or.inl (List.mem_append.mpr (Or.inl hx))
        · rcases List.mem_cons.mp hx with rfl | hx
          · exact Or.inl (List.mem_append.mpr (Or.inr (List.mem_singleton.mpr rfl)))
          · exact Or.inr hx

theorem nodup_foldl_uniq : ∀ (ts : List String) (acc : List String), acc.Nodup →
    (ts.foldl (fun acc w => if w ∈ acc then acc else acc ++ [w]) acc).Nodup
  | [], _, h => h
  | t :: ts, acc, h => by
    rw [List.foldl_cons]
    apply nodup_foldl_uniq ts
    split
    · exact h
    · rename_i ht
      rw [List.nodup_append]
      refine ⟨h, List.nodup_singleton t, fun a ha hat => ?_⟩
      rw [List.mem_singleton] at hat
      exact ht (hat ▸ ha)

theorem mem_uniqueFirsts (ts : List String) (x : String) : x ∈ uniqueFirsts ts ↔ x ∈ ts := by
  rw [uniqueFirsts, mem_foldl_uniq]
  simp

theorem nodup_uniqueFirsts (ts : List String) : (uniqueFirsts ts).Nodup :=
  nodup_foldl_uniq ts [] List.nodup_nil

theorem length_uniqueFirsts (ts : List String) : (uniqueFirsts ts).length = ts.toFinset.card := by
  rw [← List.toFinset_card_of_nodup (nodup_uniqueFirsts ts)]
  congr 1
  ext x
  simp [mem_uniqueFirsts]

/-- C6 (amended): for every nonempty corpus, the vocabulary size equals the
number of distinct tokens; interning an already-seen token leaves the
dictionary unchanged; ids are exactly 0,1,2,... in order of first occurrence
(hence dense and unique per token).  The empty corpus is excluded: there the
failed first extraction interns the cleared string (see the counterexample). -/
theorem c6_vocabulary_properties (tokens : List String) (h : tokens ≠ []) :
    (loadDictionary tokens).length = tokens.toFinset.card ∧
    (∀ w ∈ tokens, loadDictionary (tokens ++ [w]) = loadDictionary tokens) ∧
    (loadDictionary tokens).map Prod.snd = List.range (loadDictionary tokens).length ∧
    (loadDictionary tokens).map Prod.fst = uniqueFirsts tokens ∧
    ((loadDictionary tokens).map Prod.fst).Nodup := by
  obtain ⟨t, ts, rfl⟩ : ∃ t ts, tokens = t :: ts := by
    cases tokens with
    | nil => exact absurd rfl h
    | cons t ts => exact ⟨t, ts, rfl⟩
  have hfst : (loadDictionary (t :: ts)).map Prod.fst = uniqueFirsts (t :: ts) := by
    show ((t :: ts).foldl internStep []).map Prod.fst = _
    rw [map_fst_foldl_internStep]
    rfl
  refine ⟨?_, ?_, ?_, hfst, ?_⟩
  · have hl := congrArg List.length hfst
    rw [List.length_map, length_uniqueFirsts] at hl
    exact hl
  · intro w hw
    have hwD : w ∈ (loadDictionary (t :: ts)).map Prod.fst := by
      rw [hfst, mem_uniqueFirsts]
      exact hw
    have hS : ((loadDictionary (t :: ts)).find? (fun e => e.1 == w)).isSome = true :=
      (find?_fst_isSome _ w).mpr hwD
    show List.foldl internStep [] ((t :: ts) ++ [w]) = _
    rw [List.foldl_append]
    show internStep (loadDictionary (t :: ts)) w = _
    rw [internStep, if_pos hS]
  · exact map_snd_foldl_internStep (t :: ts) [] rfl
  · rw [hfst]
    exact nodup_uniqueFirsts _

theorem c6_witness :
    (["a", "b", "a"] : List String) ≠ [] ∧
    (loadDictionary ["a", "b", "a"]).length = (["a", "b", "a"] : List String).toFinset.card :=
  ⟨by decide, (c6_vocabulary_properties ["a", "b", "a"] (by decide)).1⟩

/-- C6 counterexample: on the empty corpus the first extraction fails before
eof is set, so the loop body runs once with the cleared string and interns it:
vocabulary size 1, but the stream has 0 distinct tokens. -/
theorem c6_counterexample :
    (loadDictionary []).length = 1 ∧ ([] : List String).toFinset.card = 0 :=
  ⟨rfl, rfl⟩

theorem maximum_of_gcount_zero (root : top) (h : gcount root = 0) : maximum root = 0 := by
  have hg : grandchildrenU root = 0 := by
    unfold grandchildrenU
    unfold gcount at h
    rw [h]
  unfold maximum
  rw [hg]
  norm_num

theorem runRoot_eq_nil_of_gcount_zero (trees : tops) (cur : Nat) (frame : List Nat)
    (h : gcount (trees.getD cur []) = 0) :
    runRoot trees cur frame = some [] := by
  rw [runRoot, maximum_of_gcount_zero _ h]
  rfl

theorem gcount_eq_zero_of_leafless (tr : top) (h : ∀ e ∈ tr, e.2 = ([] : List Nat)) :
    gcount tr = 0 := by
  unfold gcount
  apply List.sum_eq_zero
  intro x hx
  obtain ⟨e, he, rfl⟩ := List.mem_map.mp hx
  rw [h e he]
  rfl

theorem leafless_pushBranch_replicate (n d0 b : Nat) :
    ∀ tr ∈ pushBranch (List.replicate n []) d0 b, ∀ e ∈ tr, e.2 = ([] : List Nat) := by
  intro tr htr e he
  rcases List.mem_or_eq_of_mem_set htr with hmem | rfl
  · rw [List.eq_of_mem_replicate hmem] at he
    cases he
  · rw [getD_replicate_nil] at he
    rw [List.nil_append, List.mem_singleton] at he
    rw [he]

/-- C8: a root whose total leaf count is 0 (in particular one with an empty
branch list) gives `maximum = 0`, so the driver loop body never runs for it:
zero frames, no lookup failure, no out-of-range read. -/
theorem c8_zero_leaf_root_skipped (trees : tops) (cur : Nat) (frame : List Nat)
    (h : gcount (trees.getD cur []) = 0) :
    runRoot trees cur frame = some [] :=
  runRoot_eq_nil_of_gcount_zero trees cur frame h

theorem c8_witness :
    gcount (([[], [(5, [])]] : tops).getD 1 []) = 0 ∧
    runRoot [[], [(5, [])]] 1 frameInit = some [] :=
  ⟨by decide, c8_zero_leaf_root_skipped [[], [(5, [])]] 1 frameInit (by decide)⟩

/-- C7 (amended): a corpus with fewer than 3 tokens builds a forest with no
leaves anywhere — though not an entirely empty one: the first token's entry
holds one leafless branch (see the counterexample) — and the per-root
enumeration emits zero frames for every root, with no error. -/
theorem c7_short_corpus_no_frames (tokens : List String) (h : tokens.length < 3) :
    (∀ tr ∈ load tokens, ∀ e ∈ tr, e.2 = ([] : List Nat)) ∧
    (∀ cur frame, runRoot (load tokens) cur frame = some []) := by
  have hleaf : ∀ tr ∈ load tokens, ∀ e ∈ tr, e.2 = ([] : List Nat) := by
    cases tokens with
    | nil => exact leafless_pushBranch_replicate _ _ _
    | cons t rest =>
      cases rest with
      | nil => exact leafless_pushBranch_replicate _ _ _
      | cons t1 rs =>
        cases rs with
        | nil => exact leafless_pushBranch_replicate _ _ _
        | cons t2 rs2 => exact absurd h (by simp)
  refine ⟨hleaf, fun cur frame => ?_⟩
  apply runRoot_eq_nil_of_gcount_zero
  rcases Nat.lt_or_ge cur (load tokens).length with hlt | hge
  · have hmem : (load tokens).getD cur [] ∈ load tokens := by
      rw [List.getD_eq_getElem _ _ hlt]
      exact List.getElem_mem hlt
    exact gcount_eq_zero_of_leafless _ (hleaf _ hmem)
  · have hnil : (load tokens).getD cur [] = [] := by
      rw [List.getD_eq_getElem?_getD, List.getElem?_eq_none hge]
      rfl
    rw [hnil]
    rfl

theorem c7_witness :
    (["a", "b"] : List String).length < 3 ∧
    runRoot (load ["a", "b"]) 0 frameInit = some [] :=
  ⟨by decide, (c7_short_corpus_no_frames ["a", "b"] (by decide)).2 0 frameInit⟩

/-- C7 counterexample: the 2-token corpus "a b" has fewer than 3 tokens, yet
the built forest is not empty — the first token's entry holds the branch entry
for the second token. -/
theorem c7_counterexample :
    (["a", "b"] : List String).length < 3 ∧ (load ["a", "b"]).getD 0 [] ≠ [] := by
  constructor
  · decide
  · decide

theorem outPutAll_getD (frame : List Nat) (rd : List (Nat × String)) (s : Nat)
    (hs : s < frame.length) :
    (outPutAll frame rd).getD s "" = resolveWord rd (frame.getD s 0) := by
  unfold outPutAll
  rw [List.getD_eq_getElem _ _ (by simpa using hs), List.getElem_map,
    List.getD_eq_getElem _ _ hs]

/-- C9 counterexample: with the frame and reverse dictionary arising for a
small corpus, `outPutAll` emits nine lines, not the six lines of the defined
slots 0,1,2,3,4,6 that the claim describes. -/
theorem c9_counterexample :
    outPutAll [0, 1, 2, 3, 4, 1234578, 6, 1234578, 1234578]
        [(0, "r"), (1, "b"), (2, "c"), (3, "d"), (4, "e"), (6, "g")] ≠
      ["r", "b", "c", "d", "e", "g"] ∧
    (outPutAll [0, 1, 2, 3, 4, 1234578, 6, 1234578, 1234578]
        [(0, "r"), (1, "b"), (2, "c"), (3, "d"), (4, "e"), (6, "g")]).length = 9 := by
  constructor
  · decide
  · decide

/-- C9 (amended): `outPutAll` renders all nine frame slots, one line each, in
slot order; the reserved slots 5,7,8 still carry the sentinel 1234578, which,
as long as it is not an assigned word id, resolves to the empty string via
`map::operator[]` default-insertion (an empty output line, not a real word). -/
theorem c9_all_nine_slots (frame : List Nat) (rd : List (Nat × String))
    (hlen : frame.length = 9)
    (h5 : frame.getD 5 0 = sentinel) (h7 : frame.getD 7 0 = sentinel)
    (h8 : frame.getD 8 0 = sentinel)
    (hsent : rd.find? (fun e => e.1 == sentinel) = none) :
    (outPutAll frame rd).length = 9 ∧
    (∀ s, s < 9 → (outPutAll frame rd).getD s "" = resolveWord rd (frame.getD s 0)) ∧
    (outPutAll frame rd).getD 5 "" = "" ∧
    (outPutAll frame rd).getD 7 "" = "" ∧
    (outPutAll frame rd).getD 8 "" = "" := by
  have hres : resolveWord rd sentinel = "" := by
    unfold resolveWord
    rw [hsent]
  have hL : (outPutAll frame rd).length = 9 := by
    simpa [outPutAll] using hlen
  refine ⟨hL, fun s hs => outPutAll_getD frame rd s (by omega), ?_, ?_, ?_⟩
  · rw [outPutAll_getD frame rd 5 (by omega), h5, hres]
  · rw [outPutAll_getD frame rd 7 (by omega), h7, hres]
  · rw [outPutAll_getD frame rd 8 (by omega), h8, hres]

theorem c9_witness :
    (outPutAll [0, 1, 2, 3, 4, 1234578, 6, 1234578, 1234578]
      [(0, "r"), (1, "b"), (2, "c"), (3, "d"), (4, "e"), (6, "g")]).getD 5 "" = "" :=
  (c9_all_nine_slots [0, 1, 2, 3, 4, 1234578, 6, 1234578, 1234578]
    [(0, "r"), (1, "b"), (2, "c"), (3, "d"), (4, "e"), (6, "g")]
    (by decide) (by decide) (by decide) (by decide) (by decide)).2.2.1

theorem scanIdx_of_ge (children : List Nat) (root : top) (i : Nat)
    (h : children.length ≤ i) : scanIdx children root i = i := by
  rw [scanIdx, scanOff, dif_neg (by omega)]
  omega

theorem scanIdx_of_found (children : List Nat) (root : top) (i : Nat)
    (hi : i < children.length) (hd : doesNotContain root children[i] = false) :
    scanIdx children root i = i := by
  rw [scanIdx, scanOff, dif_pos hi, if_neg (by rw [hd]; exact Bool.false_ne_true)]
  omega

theorem scanIdx_of_skip (children : List Nat) (root : top) (i : Nat)
    (hi : i < children.length) (hd : doesNotContain root children[i] = true) :
    scanIdx children root i = scanIdx children root (i + 1) := by
  rw [scanIdx, scanOff, dif_pos hi, if_pos hd, scanIdx]
  omega

theorem getNext_exhausted (children : List Nat) (root : top) (i : Nat)
    (h : children.length ≤ i) :
    getNext children root i = (false, i + 1, none) := by
  rw [getNext]
  rw [dif_neg (by rw [scanIdx_of_ge children root i h]; omega)]
  rw [scanIdx_of_ge children root i h]

theorem matchesFrom_eq_filter : ∀ (fuel : Nat) (children : List Nat) (root : top) (i : Nat),
    children.length ≤ i + fuel →
    matchesFrom children root i = (children.drop i).filter (fun c => !doesNotContain root c)
  | 0, children, root, i, hf => by
    rw [matchesFrom, dif_neg (by rw [scanIdx_of_ge children root i (by omega)]; omega),
      List.drop_eq_nil_of_le (by omega), List.filter_nil]
  | fuel + 1, children, root, i, hf => by
    by_cases hi : i < children.length
    · by_cases hd : doesNotContain root children[i] = true
      · have hs := scanIdx_of_skip children root i hi hd
        have heq : matchesFrom children root i = matchesFrom children root (i + 1) := by
          rw [matchesFrom]
          conv_rhs => rw [matchesFrom]
          rw [hs]
        rw [heq, matchesFrom_eq_filter fuel children root (i + 1) (by omega),
          List.drop_eq_getElem_cons hi, List.filter_cons, if_neg (by simp [hd])]
      · have hd' : doesNotContain root children[i] = false := by simpa using hd
        have hs := scanIdx_of_found children root i hi hd'
        rw [matchesFrom]
        simp only [hs]
        rw [dif_pos hi, List.drop_eq_getElem_cons hi, List.filter_cons,
          if_pos (by simp [hd']), matchesFrom_eq_filter fuel children root (i + 1) (by omega)]
    · rw [matchesFrom, dif_neg (by rw [scanIdx_of_ge children root i (by omega)]; omega),
        List.drop_eq_nil_of_le (by omega), List.filter_nil]

theorem getD_prop (P : top → Prop) (trees : tops) (i : Nat) (hnil : P [])
    (h : ∀ tr ∈ trees, P tr) : P (trees.getD i []) := by
  rcases Nat.lt_or_ge i trees.length with hlt | hge
  · rw [List.getD_eq_getElem _ _ hlt]
    exact h _ (List.getElem_mem hlt)
  · rw [List.getD_eq_getElem?_getD, List.getElem?_eq_none hge]
    exact hnil

theorem map_fst_addLeaf : ∀ (t : top) (b w : Nat),
    (addLeaf t b w).map Prod.fst = t.map Prod.fst
  | [], _, _ => rfl
  | e :: rest, b, w => by
    rw [addLeaf]
    split
    · split <;> simp
    · rw [List.map_cons, List.map_cons, map_fst_addLeaf rest b w]

theorem nodup_fst_processWord (trees : tops) (d0 b0 w : Nat)
    (h : ∀ tr ∈ trees, (tr.map Prod.fst).Nodup) :
    ∀ tr ∈ processWord trees d0 b0 w, (tr.map Prod.fst).Nodup := by
  intro tr htr
  simp only [processWord] at htr
  rcases List.mem_or_eq_of_mem_set htr with hmem | rfl
  · exact h _ hmem
  · rw [map_fst_addLeaf]
    have h0 : ((trees.getD d0 []).map Prod.fst).Nodup :=
      getD_prop (fun tr => (tr.map Prod.fst).Nodup) trees d0 List.nodup_nil h
    split
    · rename_i hc
      rw [List.map_append, List.nodup_append]
      refine ⟨h0, by simp, fun a ha hat => ?_⟩
      have haw : a = w := by simpa using hat
      exact (doesNotContain_iff _ w).mp hc (haw ▸ ha)
    · exact h0

theorem nodup_fst_foldl_processWord (f : String → Nat) (d0 b0 : Nat) :
    ∀ (ws : List String) (tr : tops), (∀ t ∈ tr, (t.map Prod.fst).Nodup) →
      ∀ t ∈ ws.foldl (fun tr w => processWord tr d0 b0 (f w)) tr, (t.map Prod.fst).Nodup
  | [], _, h => h
  | w :: ws, tr, h => by
    rw [List.foldl_cons]
    exact nodup_fst_foldl_processWord f d0 b0 ws _ (nodup_fst_processWord _ _ _ _ h)

theorem nodup_fst_pushBranch_replicate (n d0 b : Nat) :
    ∀ tr ∈ pushBranch (List.replicate n []) d0 b, (tr.map Prod.fst).Nodup := by
  intro tr htr
  rcases List.mem_or_eq_of_mem_set htr with hmem | rfl
  · rw [List.eq_of_mem_replicate hmem]
    exact List.nodup_nil
  · rw [getD_replicate_nil, List.nil_append]
    simp

theorem nodup_fst_load (tokens : List String) :
    ∀ tr ∈ load tokens, (tr.map Prod.fst).Nodup := by
  cases tokens with
  | nil => exact nodup_fst_pushBranch_replicate _ _ _
  | cons t rest =>
    cases rest with
    | nil => exact nodup_fst_pushBranch_replicate _ _ _
    | cons t1 rs =>
      exact nodup_fst_foldl_processWord _ _ _ rs _ (nodup_fst_pushBranch_replicate _ _ _)

/-- C2: every value the matcher writes into slot 4 for the pair of branch
words (slot 1, slot 3) is a branch-word-id of the forest entry rooted at slot
1's id AND of the entry rooted at slot 3's id; the resumable cursor yields
pairwise-distinct matches in one pass; and once the cursor exhausts
children(slot 1), every call reports gotNext = false and produces no value. -/
theorem c2_matcher_shared_continuations (tokens : List String) (b d : Nat) :
    (∀ v ∈ matchesFrom (((load tokens).getD b []).map Prod.fst) ((load tokens).getD d []) 0,
        v ∈ ((load tokens).getD b []).map Prod.fst ∧
        v ∈ ((load tokens).getD d []).map Prod.fst) ∧
    (matchesFrom (((load tokens).getD b []).map Prod.fst) ((load tokens).getD d []) 0).Nodup ∧
    (∀ i, (((load tokens).getD b []).map Prod.fst).length ≤ i →
        getNext (((load tokens).getD b []).map Prod.fst) ((load tokens).getD d []) i =
          (false, i + 1, none)) := by
  have hm : matchesFrom (((load tokens).getD b []).map Prod.fst) ((load tokens).getD d []) 0 =
      (((load tokens).getD b []).map Prod.fst).filter
        (fun c => !doesNotContain ((load tokens).getD d []) c) := by
    rw [matchesFrom_eq_filter (((load tokens).getD b []).map Prod.fst).length _ _ 0 (by omega),
      List.drop_zero]
  refine ⟨?_, ?_, ?_⟩
  · intro v hv
    rw [hm, List.mem_filter] at hv
    refine ⟨hv.1, ?_⟩
    have hp := hv.2
    rw [Bool.not_eq_true'] at hp
    exact (doesNotContain_eq_false_iff _ v).mp hp
  · rw [hm]
    exact (List.filter_sublist _).nodup
      (getD_prop (fun tr => (tr.map Prod.fst).Nodup) (load tokens) b List.nodup_nil
        (nodup_fst_load tokens))
  · intro i hi
    exact getNext_exhausted _ _ i hi

theorem c2_witness :
    (matchesFrom (((load ["a", "b", "c", "a", "b", "d"]).getD 0 []).map Prod.fst)
      ((load ["a", "b", "c", "a", "b", "d"]).getD 0 []) 0).Nodup :=
  (c2_matcher_shared_continuations ["a", "b", "c", "a", "b", "d"] 0 0).2.1

/-- C3: whenever `getNextFrame` completes (all its unchecked reads in range),
slot 1 and slot 3 of the frame are branch-word-ids of the forest entry rooted
at slot 0's id (the current root), slot 2 is a leaf of slot 1's branch entry
under that root, and slot 6 is a leaf of slot 3's branch entry under it. -/
theorem c3_frame_slots (trees : tops) (cur : Nat) (frame : List Nat)
    (mc sc : Nat × Nat) (rb : Bool) (f : List Nat) (cs : (Nat × Nat) × (Nat × Nat))
    (hlen : frame.length = 9)
    (h : getNextFrame cur (trees.getD cur []) frame mc sc rb = some (f, cs)) :
    f.getD 0 0 = cur ∧
    f.getD 1 0 ∈ ((trees.getD (f.getD 0 0) []).map Prod.fst) ∧
    f.getD 3 0 ∈ ((trees.getD (f.getD 0 0) []).map Prod.fst) ∧
    (∃ e ∈ trees.getD (f.getD 0 0) [], e.1 = f.getD 1 0 ∧ f.getD 2 0 ∈ e.2) ∧
    (∃ e ∈ trees.getD (f.getD 0 0) [], e.1 = f.getD 3 0 ∧ f.getD 6 0 ∈ e.2) := by
  rw [getNextFrame] at h
  split at h
  case h_2 => exact absurd h (by simp)
  case h_1 eM eS hA hB =>
    split at h
    case h_2 => exact absurd h (by simp)
    case h_1 lM lS hC hD =>
      obtain ⟨hf, hcs⟩ := Prod.mk.injEq .. ▸ Option.some.inj h
      subst hf
      have f0 : (((((frame.set 0 cur).set 1 eM.1).set 2 lM).set 3 eS.1).set 6 lS).getD 0 0 =
          cur := by
        rw [getD_set_of_ne _ 6 0 _ _ (by omega), getD_set_of_ne _ 3 0 _ _ (by omega),
          getD_set_of_ne _ 2 0 _ _ (by omega), getD_set_of_ne _ 1 0 _ _ (by omega),
          getD_set_self _ 0 _ _ (by rw [hlen]; omega)]
      have f1 : (((((frame.set 0 cur).set 1 eM.1).set 2 lM).set 3 eS.1).set 6 lS).getD 1 0 =
          eM.1 := by
        rw [getD_set_of_ne _ 6 1 _ _ (by omega), getD_set_of_ne _ 3 1 _ _ (by omega),
          getD_set_of_ne _ 2 1 _ _ (by omega),
          getD_set_self _ 1 _ _ (by simp [hlen])]
      have f2 : (((((frame.set 0 cur).set 1 eM.1).set 2 lM).set 3 eS.1).set 6 lS).getD 2 0 =
          lM := by
        rw [getD_set_of_ne _ 6 2 _ _ (by omega), getD_set_of_ne _ 3 2 _ _ (by omega),
          getD_set_self _ 2 _ _ (by simp [hlen])]
      have f3 : (((((frame.set 0 cur).set 1 eM.1).set 2 lM).set 3 eS.1).set 6 lS).getD 3 0 =
          eS.1 := by
        rw [getD_set_of_ne _ 6 3 _ _ (by omega),
          getD_set_self _ 3 _ _ (by simp [hlen])]
      have f6 : (((((frame.set 0 cur).set 1 eM.1).set 2 lM).set 3 eS.1).set 6 lS).getD 6 0 =
          lS := by
        rw [getD_set_self _ 6 _ _ (by simp [hlen])]
      rw [f0, f1, f2, f3, f6]
      exact ⟨rfl,
        List.mem_map_of_mem Prod.fst (List.getElem?_mem hA),
        List.mem_map_of_mem Prod.fst (List.getElem?_mem hB),
        ⟨eM, List.getElem?_mem hA, rfl, List.getElem?_mem hC⟩,
        ⟨eS, List.getElem?_mem hB, rfl, List.getElem?_mem hD⟩⟩

theorem c3_witness :
    ([0, 1, 2, 1, 1234578, 1234578, 2, 1234578, 1234578] : List Nat).getD 0 0 = 0 ∧
    ([0, 1, 2, 1, 1234578, 1234578, 2, 1234578, 1234578] : List Nat).getD 1 0 ∈
      ((([[(1, [2])]] : tops).getD
        (([0, 1, 2, 1, 1234578, 1234578, 2, 1234578, 1234578] : List Nat).getD 0 0)
        []).map Prod.fst) ∧
    ([0, 1, 2, 1, 1234578, 1234578, 2, 1234578, 1234578] : List Nat).getD 3 0 ∈
      ((([[(1, [2])]] : tops).getD
        (([0, 1, 2, 1, 1234578, 1234578, 2, 1234578, 1234578] : List Nat).getD 0 0)
        []).map Prod.fst) ∧
    (∃ e ∈ ([[(1, [2])]] : tops).getD
        (([0, 1, 2, 1, 1234578, 1234578, 2, 1234578, 1234578] : List Nat).getD 0 0) [],
      e.1 = ([0, 1, 2, 1, 1234578, 1234578, 2, 1234578, 1234578] : List Nat).getD 1 0 ∧
      ([0, 1, 2, 1, 1234578, 1234578, 2, 1234578, 1234578] : List Nat).getD 2 0 ∈ e.2) ∧
    (∃ e ∈ ([[(1, [2])]] : tops).getD
        (([0, 1, 2, 1, 1234578, 1234578, 2, 1234578, 1234578] : List Nat).getD 0 0) [],
      e.1 = ([0, 1, 2, 1, 1234578, 1234578, 2, 1234578, 1234578] : List Nat).getD 3 0 ∧
      ([0, 1, 2, 1, 1234578, 1234578, 2, 1234578, 1234578] : List Nat).getD 6 0 ∈ e.2) :=
  c3_frame_slots [[(1, [2])]] 0 frameInit (0, 0) (0, 0) false
    [0, 1, 2, 1, 1234578, 1234578, 2, 1234578, 1234578] ((0, 0), (0, 0))
    (by decide) (by decide)

theorem statesFrom_length (root : top) :
    ∀ (n : Nat) (st : (Nat × Nat) × (Nat × Nat)), (statesFrom root st n).length = n
  | 0, _ => rfl
  | n + 1, (mc, sc) => by
    rw [statesFrom, List.length_cons, statesFrom_length root n]

theorem maximum_eq_tri (root : top) (h : gcount root < 65536) :
    maximum root = gcount root * (gcount root + 1) / 2 := by
  have hgu : grandchildrenU root = gcount root := by
    rw [grandchildrenU, ← gcount]
    exact Nat.mod_eq_of_lt (by omega)
  rw [maximum, hgu]
  by_cases h1 : gcount root = 1
  · rw [if_pos h1, h1]
  · rw [if_neg h1]
    have hlt : gcount root * (gcount root + 1) < 4294967296 := by
      calc gcount root * (gcount root + 1) ≤ 65535 * 65536 :=
            Nat.mul_le_mul (by omega) (by omega)
        _ < 4294967296 := by norm_num
    rw [Nat.mod_eq_of_lt (show gcount root + 1 < 4294967296 by omega),
      Nat.mod_eq_of_lt hlt]

/-- C4 (amended): for every root whose leaf total L is below 65536 — the bound
under which the unsigned 32-bit product g*(g+1) in `maximum` cannot truncate —
the driver visits exactly L*(L+1)/2 coordinate pairs (one `getNextFrame` call
each); for larger roots the product wraps mod 2^32 (see the counterexample). -/
theorem c4_pair_count (root : top) (h : gcount root < 65536) :
    (visited root).length = gcount root * (gcount root + 1) / 2 := by
  rw [visited, statesFrom_length, maximum_eq_tri root h]

theorem c4_witness :
    gcount [(1, [5, 6]), (2, [7])] < 65536 ∧
    (visited [(1, [5, 6]), (2, [7])]).length = 6 :=
  ⟨by decide, (c4_pair_count [(1, [5, 6]), (2, [7])] (by decide)).trans (by decide)⟩

theorem branchLen_nil (i : Nat) : branchLen ([] : top) i = 0 := rfl

theorem branchLen_cons_zero (e : Nat × List Nat) (rest : top) :
    branchLen (e :: rest) 0 = e.2.length := rfl

theorem branchLen_cons_succ (e : Nat × List Nat) (rest : top) (i : Nat) :
    branchLen (e :: rest) (i + 1) = branchLen rest i := rfl

theorem usub1_eq_sub_one (n : Nat) (h1 : 1 ≤ n) (h2 : n < 4294967296) :
    usub1 n = n - 1 := by
  unfold usub1
  omega

theorem gcount_nil : gcount ([] : top) = 0 := rfl

theorem gcount_cons (e : Nat × List Nat) (rest : top) :
    gcount (e :: rest) = e.2.length + gcount rest := by
  simp [gcount]

theorem branchLen_le_gcount : ∀ (root : top) (i : Nat), branchLen root i ≤ gcount root
  | [], i => by rw [branchLen_nil]; omega
  | e :: rest, 0 => by rw [branchLen_cons_zero, gcount_cons]; omega
  | e :: rest, i + 1 => by
    rw [branchLen_cons_succ, gcount_cons]
    have := branchLen_le_gcount rest i
    omega

theorem length_le_gcount : ∀ (root : top), (∀ e ∈ root, e.2 ≠ ([] : List Nat)) →
    root.length ≤ gcount root
  | [], _ => by simp [gcount_nil]
  | e :: rest, hb => by
    have h1 : 1 ≤ e.2.length := List.length_pos.mpr (hb e (List.mem_cons_self e rest))
    have h2 := length_le_gcount rest (fun x hx => hb x (List.mem_cons_of_mem e hx))
    rw [List.length_cons, gcount_cons]
    omega

theorem posOf_nil (k : Nat) : posOf ([] : top) k = (0, k) := rfl

theorem posOf_cons (e : Nat × List Nat) (rest : top) (k : Nat) :
    posOf (e :: rest) k = if k < e.2.length then (0, k)
      else ((posOf rest (k - e.2.length)).1 + 1, (posOf rest (k - e.2.length)).2) := rfl

theorem posOf_zero_eq (e : Nat × List Nat) (rest : top) (h : e.2 ≠ ([] : List Nat)) :
    posOf (e :: rest) 0 = (0, 0) := by
  rw [posOf_cons, if_pos (List.length_pos.mpr h)]

theorem posOf_bounds : ∀ (root : top) (k : Nat), k < gcount root →
    (posOf root k).1 < root.length ∧ (posOf root k).2 < branchLen root (posOf root k).1
  | [], k, h => absurd h (by rw [gcount_nil]; omega)
  | e :: rest, k, h => by
    rw [posOf_cons]
    by_cases hk : k < e.2.length
    · rw [if_pos hk]
      exact ⟨by simp, by rw [branchLen_cons_zero]; exact hk⟩
    · rw [if_neg hk]
      have hrec := posOf_bounds rest (k - e.2.length) (by rw [gcount_cons] at h; omega)
      refine ⟨?_, ?_⟩
      · rw [List.length_cons]
        exact Nat.succ_lt_succ hrec.1
      · rw [branchLen_cons_succ]
        exact hrec.2

theorem posOf_mono : ∀ (root : top) (a b : Nat), a ≤ b →
    lexLe (posOf root a) (posOf root b)
  | [], a, b, hab => by
    rw [posOf_nil, posOf_nil]
    exact Or.inr ⟨rfl, hab⟩
  | e :: rest, a, b, hab => by
    rw [posOf_cons, posOf_cons]
    by_cases hb : b < e.2.length
    · rw [if_pos (by omega), if_pos hb]
      exact Or.inr ⟨rfl, hab⟩
    · rw [if_neg hb]
      by_cases ha : a < e.2.length
      · rw [if_pos ha]
        exact Or.inl (by omega)
      · rw [if_neg ha]
        have hrec := posOf_mono rest (a - e.2.length) (b - e.2.length) (by omega)
        rcases hrec with h1 | ⟨h1, h2⟩
        · exact Or.inl (by omega)
        · exact Or.inr ⟨by omega, h2⟩

theorem advPos_posOf : ∀ (root : top), (∀ e ∈ root, e.2 ≠ ([] : List Nat)) →
    gcount root < 4294967296 →
    ∀ k, k + 1 < gcount root → advPos root (posOf root k) = posOf root (k + 1)
  | [], _, _, k, h => absurd h (by rw [gcount_nil]; omega)
  | e :: rest, hb, hg, k, h => by
    have hlen1 : 1 ≤ e.2.length := List.length_pos.mpr (hb e (List.mem_cons_self e rest))
    have hlenM : e.2.length < 4294967296 := by
      have := branchLen_le_gcount (e :: rest) 0
      rw [branchLen_cons_zero] at this
      omega
    by_cases hk1 : k + 1 < e.2.length
    · rw [posOf_cons, if_pos (by omega : k < e.2.length), advPos]
      simp only
      rw [branchLen_cons_zero, usub1_eq_sub_one _ hlen1 hlenM, if_neg (by omega)]
      rw [posOf_cons, if_pos hk1]
    · by_cases hk2 : k + 1 = e.2.length
      · rw [posOf_cons, if_pos (by omega : k < e.2.length), advPos]
        simp only
        rw [branchLen_cons_zero, usub1_eq_sub_one _ hlen1 hlenM, if_pos (by omega)]
        rw [posOf_cons, if_neg (by omega)]
        have h0 : k + 1 - e.2.length = 0 := by omega
        rw [h0]
        have hgr : 0 < gcount rest := by rw [gcount_cons] at h; omega
        cases rest with
        | nil => rw [gcount_nil] at hgr; omega
        | cons f r2 =>
          rw [posOf_zero_eq f r2 (hb f (List.mem_cons_of_mem e (List.mem_cons_self f r2)))]
      · have hk : ¬ k < e.2.length := by omega
        rw [posOf_cons, if_neg hk, posOf_cons, if_neg (by omega : ¬ k + 1 < e.2.length)]
        have harg : k + 1 - e.2.length = (k - e.2.length) + 1 := by omega
        rw [harg]
        have hrec := advPos_posOf rest (fun x hx => hb x (List.mem_cons_of_mem e hx))
          (by rw [gcount_cons] at hg; omega)
          (k - e.2.length) (by rw [gcount_cons] at h; omega)
        rw [← hrec, advPos, advPos]
        simp only
        rw [branchLen_cons_succ]
        by_cases hcond : (posOf rest (k - e.2.length)).2 =
            usub1 (branchLen rest (posOf rest (k - e.2.length)).1)
        · rw [if_pos hcond, if_pos hcond]
        · rw [if_neg hcond, if_neg hcond]

set_option maxRecDepth 4000 in
theorem posOf_isLast : ∀ (root : top), (∀ e ∈ root, e.2 ≠ ([] : List Nat)) →
    gcount root < 4294967296 → ∀ k, k < gcount root →
    (((posOf root k).1 = usub1 root.length ∧
      (posOf root k).2 = usub1 (branchLen root (usub1 root.length))) ↔
      k = gcount root - 1)
  | [], _, _, k, h => absurd h (by rw [gcount_nil]; omega)
  | e :: rest, hb, hg, k, h => by
    have hlen1 : 1 ≤ e.2.length := List.length_pos.mpr (hb e (List.mem_cons_self e rest))
    have hlenM : e.2.length < 4294967296 := by
      have h1 := branchLen_le_gcount (e :: rest) 0
      rw [branchLen_cons_zero] at h1
      omega
    cases rest with
    | nil =>
      have hgc : gcount [e] = e.2.length := by rw [gcount_cons, gcount_nil]; omega
      have hk : k < e.2.length := by omega
      have hl : usub1 (List.length [e]) = 0 := by
        rw [List.length_cons, List.length_nil, usub1_eq_sub_one 1 (by omega) (by norm_num)]
      rw [posOf_cons, if_pos hk, hl, branchLen_cons_zero,
        usub1_eq_sub_one _ hlen1 hlenM, hgc]
      dsimp only
      omega
    | cons f r2 =>
      have hbr : ∀ x ∈ f :: r2, x.2 ≠ ([] : List Nat) :=
        fun x hx => hb x (List.mem_cons_of_mem e hx)
      have hgceq : gcount (e :: f :: r2) = e.2.length + gcount (f :: r2) :=
        gcount_cons e (f :: r2)
      have hf1 : 1 ≤ f.2.length := List.length_pos.mpr (hbr f (List.mem_cons_self f r2))
      have hgfeq : gcount (f :: r2) = f.2.length + gcount r2 := gcount_cons f r2
      have hgr : 1 ≤ gcount (f :: r2) := by omega
      have hlr : 1 ≤ (f :: r2).length := by rw [List.length_cons]; omega
      have hlg : (f :: r2).length ≤ gcount (f :: r2) := length_le_gcount (f :: r2) hbr
      have hlrM : (f :: r2).length < 4294967296 := by omega
      have hlenroot : usub1 (List.length (e :: f :: r2)) = (f :: r2).length := by
        rw [List.length_cons e (f :: r2),
          usub1_eq_sub_one ((f :: r2).length + 1) (by omega) (by omega)]
        omega
      have hblast : branchLen (e :: f :: r2) ((f :: r2).length) =
          branchLen (f :: r2) (usub1 (f :: r2).length) := by
        have hx : (f :: r2).length = ((f :: r2).length - 1) + 1 := by omega
        rw [usub1_eq_sub_one ((f :: r2).length) hlr hlrM]
        conv_lhs => rw [hx]
        rw [branchLen_cons_succ]
      rw [hlenroot, hblast]
      by_cases hk : k < e.2.length
      · rw [posOf_cons, if_pos hk]
        dsimp only
        constructor
        · rintro ⟨h1, _⟩
          rw [List.length_cons] at h1
          omega
        · intro h1
          omega
      · rw [posOf_cons, if_neg hk, usub1_eq_sub_one ((f :: r2).length) hlr hlrM]
        dsimp only
        have hrec := posOf_isLast (f :: r2) hbr (by omega)
          (k - e.2.length) (by omega)
        rw [usub1_eq_sub_one ((f :: r2).length) hlr hlrM] at hrec
        constructor
        · rintro ⟨h1, h2⟩
          have h3 := hrec.mp ⟨by omega, h2⟩
          omega
        · intro h1
          obtain ⟨ha, hb2⟩ := hrec.mpr (by omega)
          exact ⟨by omega, hb2⟩

theorem iterate_sweep_advance (root : top) (hb : ∀ e ∈ root, e.2 ≠ ([] : List Nat))
    (hg : gcount root < 4294967296) (m s : Nat) (hs1 : s + 1 < gcount root) :
    iterateCoordinates root (posOf root m) (posOf root s) =
      (posOf root m, posOf root (s + 1)) := by
  have hcond : ¬((posOf root s).1 = usub1 root.length ∧
      (posOf root s).2 = usub1 (branchLen root (usub1 root.length))) := by
    intro hc
    have := (posOf_isLast root hb hg s (by omega)).mp hc
    omega
  rw [iterateCoordinates, if_neg hcond, advPos_posOf root hb hg s hs1]

theorem iterate_row_advance (root : top) (hb : ∀ e ∈ root, e.2 ≠ ([] : List Nat))
    (hg : gcount root < 4294967296) (m : Nat) (hm : m + 1 < gcount root) :
    iterateCoordinates root (posOf root m) (posOf root (gcount root - 1)) =
      (posOf root (m + 1), posOf root (m + 1)) := by
  have hcond : (posOf root (gcount root - 1)).1 = usub1 root.length ∧
      (posOf root (gcount root - 1)).2 = usub1 (branchLen root (usub1 root.length)) :=
    (posOf_isLast root hb hg (gcount root - 1) (by omega)).mpr rfl
  rw [iterateCoordinates, if_pos hcond, advPos_posOf root hb hg m hm]

theorem statesFrom_row (root : top) (hb : ∀ e ∈ root, e.2 ≠ ([] : List Nat))
    (hg : gcount root < 4294967296) :
    ∀ (t m s k : Nat), s + t + 1 = gcount root → m ≤ s →
    statesFrom root (posOf root m, posOf root s) ((gcount root - s) + k) =
      ((List.range (gcount root - s)).map fun dd => (posOf root m, posOf root (s + dd)))
        ++ statesFrom root
          (iterateCoordinates root (posOf root m) (posOf root (gcount root - 1))) k
  | 0, m, s, k, ht, hm => by
    have hs : s = gcount root - 1 := by omega
    have h1 : gcount root - s = 1 := by omega
    have h2 : 1 + k = k + 1 := by omega
    rw [h1, h2, statesFrom, show List.range 1 = [0] from rfl, List.map_cons, List.map_nil,
      List.cons_append, List.nil_append, Nat.add_zero, hs]
  | t + 1, m, s, k, ht, hm => by
    have h1 : gcount root - s = (gcount root - (s + 1)) + 1 := by omega
    have h2 : (gcount root - (s + 1)) + 1 + k = ((gcount root - (s + 1)) + k) + 1 := by omega
    rw [h1, h2, statesFrom, iterate_sweep_advance root hb hg m s (by omega),
      statesFrom_row root hb hg t m (s + 1) k (by omega) (by omega),
      List.range_succ_eq_map, List.map_cons, List.map_map, List.cons_append, Nat.add_zero]
    congr 2
    apply List.map_congr_left
    intro dd hdd
    simp only [Function.comp]
    rw [show s + 1 + dd = s + (dd + 1) from by omega]

theorem tri_aux (r : Nat) : r * (r + 1) / 2 + (r + 1) = (r + 1) * (r + 2) / 2 := by
  obtain ⟨q, hq⟩ := Nat.even_mul_succ_self r
  have expand : (r + 1) * (r + 2) = r * (r + 1) + 2 * (r + 1) := by ring
  rw [hq] at expand
  rw [hq, expand]
  omega

theorem triFrom_length_aux : ∀ (t L m : Nat), L ≤ m + t →
    (triFrom L m).length = (L - m) * (L - m + 1) / 2
  | 0, L, m, h => by
    rw [triFrom, if_neg (by omega)]
    have : L - m = 0 := by omega
    rw [this]
    rfl
  | t + 1, L, m, h => by
    by_cases hm : m < L
    · rw [triFrom, if_pos hm, List.length_append, List.length_map, List.length_range,
        triFrom_length_aux t L (m + 1) (by omega)]
      have e1 : L - m - 1 + 1 = L - m := by omega
      have e2 : L - (m + 1) = L - m - 1 := by omega
      have e3 : L - m - 1 + 2 = L - m + 1 := by omega
      have ht := tri_aux (L - m - 1)
      rw [e1, e3] at ht
      rw [e2, e1]
      omega
    · rw [triFrom, if_neg hm]
      have : L - m = 0 := by omega
      rw [this]
      rfl

theorem triFrom_length (L m : Nat) : (triFrom L m).length = (L - m) * (L - m + 1) / 2 :=
  triFrom_length_aux L L m (by omega)

theorem triFrom_mem : ∀ (t L m : Nat) (p : Nat × Nat), L ≤ m + t → p ∈ triFrom L m →
    m ≤ p.1 ∧ p.1 ≤ p.2 ∧ p.2 < L
  | 0, L, m, p, h, hp => by
    rw [triFrom, if_neg (by omega)] at hp
    cases hp
  | t + 1, L, m, p, h, hp => by
    by_cases hm : m < L
    · rw [triFrom, if_pos hm] at hp
      rcases List.mem_append.mp hp with hrow | hrest
      · obtain ⟨dd, hdd, rfl⟩ := List.mem_map.mp hrow
        rw [List.mem_range] at hdd
        dsimp only
        omega
      · have := triFrom_mem t L (m + 1) p (by omega) hrest
        exact ⟨by omega, this.2.1, this.2.2⟩
    · rw [triFrom, if_neg hm] at hp
      cases hp

theorem statesFrom_tri (root : top) (hb : ∀ e ∈ root, e.2 ≠ ([] : List Nat))
    (hg : gcount root < 4294967296) :
    ∀ (t m : Nat), m + t + 1 = gcount root →
    statesFrom root (posOf root m, posOf root m) ((triFrom (gcount root) m).length) =
      (triFrom (gcount root) m).map (fun p => (posOf root p.1, posOf root p.2))
  | 0, m, ht => by
    have hmg : m < gcount root := by omega
    have hlen : (triFrom (gcount root) m).length =
        (gcount root - m) + (triFrom (gcount root) (m + 1)).length := by
      rw [triFrom, if_pos hmg, List.length_append, List.length_map, List.length_range]
    have hz : (triFrom (gcount root) (m + 1)).length = 0 := by
      rw [triFrom, if_neg (by omega)]
      rfl
    rw [hlen, hz, statesFrom_row root hb hg 0 m m 0 (by omega) (le_refl m)]
    conv_rhs => rw [triFrom, if_pos hmg]
    rw [show triFrom (gcount root) (m + 1) = [] from by rw [triFrom, if_neg (by omega)],
      List.append_nil, List.map_map,
      show statesFrom root
        (iterateCoordinates root (posOf root m) (posOf root (gcount root - 1))) 0 = []
        from rfl,
      List.append_nil]
    rfl
  | t + 1, m, ht => by
    have hmg : m < gcount root := by omega
    have hlen : (triFrom (gcount root) m).length =
        (gcount root - m) + (triFrom (gcount root) (m + 1)).length := by
      rw [triFrom, if_pos hmg, List.length_append, List.length_map, List.length_range]
    rw [hlen, statesFrom_row root hb hg (t + 1) m m ((triFrom (gcount root) (m + 1)).length)
      (by omega) (le_refl m)]
    rw [iterate_row_advance root hb hg m (by omega),
      statesFrom_tri root hb hg t (m + 1) (by omega)]
    conv_rhs => rw [triFrom, if_pos hmg]
    rw [List.map_append, List.map_map]
    rfl

/-- C5: for a root with at least one branch, every branch holding at least one
leaf, and a leaf total that fits 32-bit arithmetic, the driver's coordinate
states start at main = sweep = position 0 and run through exactly the
upper-triangular pairs of flattened positions (diagonal included) in row-major
order; consequently sweep is lexicographically ≥ main at every visited state. -/
theorem c5_triangular_enumeration (root : top) (hne : root ≠ [])
    (hb : ∀ e ∈ root, e.2 ≠ ([] : List Nat)) (hg : gcount root < 65536) :
    visited root = (triFrom (gcount root) 0).map
      (fun p => (posOf root p.1, posOf root p.2)) ∧
    ∀ st ∈ visited root, lexLe st.1 st.2 := by
  have hg32 : gcount root < 4294967296 := by omega
  have hg1 : 1 ≤ gcount root := by
    cases root with
    | nil => exact absurd rfl hne
    | cons e rest =>
      have h1 : 1 ≤ e.2.length :=
        List.length_pos.mpr (hb e (List.mem_cons_self e rest))
      rw [gcount_cons]
      omega
  have hmax : maximum root = (triFrom (gcount root) 0).length := by
    rw [maximum_eq_tri root hg, triFrom_length, Nat.sub_zero]
  have h0 : posOf root 0 = (0, 0) := by
    cases root with
    | nil => exact absurd rfl hne
    | cons e rest => exact posOf_zero_eq e rest (hb e (List.mem_cons_self e rest))
  have hfirst : visited root =
      statesFrom root (posOf root 0, posOf root 0) ((triFrom (gcount root) 0).length) := by
    rw [visited, hmax, h0]
  have htraj := statesFrom_tri root hb hg32 (gcount root - 1) 0 (by omega)
  refine ⟨hfirst.trans htraj, ?_⟩
  intro st hst
  rw [hfirst.trans htraj] at hst
  obtain ⟨p, hp, rfl⟩ := List.mem_map.mp hst
  have hmem := triFrom_mem (gcount root) (gcount root) 0 p (by omega) hp
  exact posOf_mono root p.1 p.2 hmem.2.1

theorem c5_witness :
    ([(1, [7, 8]), (2, [9])] : top) ≠ [] ∧
    (∀ e ∈ ([(1, [7, 8]), (2, [9])] : top), e.2 ≠ ([] : List Nat)) ∧
    gcount [(1, [7, 8]), (2, [9])] < 65536 ∧
    (visited [(1, [7, 8]), (2, [9])] = (triFrom (gcount [(1, [7, 8]), (2, [9])]) 0).map
        (fun p => (posOf [(1, [7, 8]), (2, [9])] p.1, posOf [(1, [7, 8]), (2, [9])] p.2)) ∧
      ∀ st ∈ visited [(1, [7, 8]), (2, [9])], lexLe st.1 st.2) :=
  ⟨by decide, by decide, by decide,
    c5_triangular_enumeration [(1, [7, 8]), (2, [9])] (by decide) (by decide) (by decide)⟩

/-- C5 counterexample: a root in which a later branch entry has an empty leaf
set — the shape `load` gives every branch after the first — has flattened
positions (0,0) and (2,0) only (L = 2), yet the enumerator moves sweep to
(1,0) and (1,1), coordinates that are not flattened positions at all, so the
visited states are not the upper-triangular pairs of flattened positions. -/
theorem c5_counterexample :
    gcount [(1, [2]), (2, []), (3, [4])] = 2 ∧
    visited [(1, [2]), (2, []), (3, [4])] =
      [((0, 0), (0, 0)), ((0, 0), (1, 0)), ((0, 0), (1, 1))] ∧
    ¬ ((1, 0) = posOf [(1, [2]), (2, []), (3, [4])] 0 ∨
       (1, 0) = posOf [(1, [2]), (2, []), (3, [4])] 1) := by
  refine ⟨?_, ?_, ?_⟩ <;> decide

/-- C4 counterexample: a root with L = 65536 leaves (reachable from a corpus
with that many distinct tokens) makes the unsigned product g*(g+1) in
`maximum` wrap mod 2^32: the driver visits 32768 coordinate pairs, not the
triangular number 65536*65537/2 = 2147516416 the claim promises for every
root. -/
theorem c4_counterexample :
    gcount [(0, List.replicate 65536 0)] = 65536 ∧
    (visited [(0, List.replicate 65536 0)]).length = 32768 ∧
    gcount [(0, List.replicate 65536 0)] * (gcount [(0, List.replicate 65536 0)] + 1) / 2 =
      2147516416 := by
  have hlen : ((0, List.replicate 65536 0) : Nat × List Nat).2.length = 65536 :=
    List.length_replicate 65536 0
  have hg : gcount [(0, List.replicate 65536 0)] = 65536 := by
    rw [gcount_cons, hlen, gcount_nil]
  have hgu : grandchildrenU [(0, List.replicate 65536 0)] = 65536 := by
    rw [grandchildrenU, ← gcount, hg]
  refine ⟨hg, ?_, ?_⟩
  · rw [visited, statesFrom_length]
    unfold maximum
    rw [hgu]
    norm_num
  · rw [hg]
